import Mathlib

/-!
Verification of the Bloom-filter spell-check engine (johnwbyrd/bloomer).

The repository holds two snapshots of the program:
* `spellcheck.c` (older snapshot, modelled in namespace `V1`): `check_bit`,
  `seek_to_record`, `read_current_record`, probing in computed order;
* `src/spellcheck.c` (current version, modelled in namespace `V2`):
  `bloom_read_bit` with a REL-file POSITION command, a descending bubble
  sort of the bit positions in `check_word`, and DOS status decoding.

The five hash functions are byte-identical in both snapshots and are
modelled once, at top level.  Words are modelled as the list of the bytes
of the C string (the bytes strictly before the NUL terminator); the C cast
`(uint8_t)(*word)` appears as `% 256` on each byte, and all 32-bit
unsigned wraparound arithmetic is explicit `% 2^32`.
-/

/-- Truncation to unsigned 32-bit, the implicit wraparound of every
`uint32_t` operation in the source. -/
def m32 (n : Nat) : Nat := n % 4294967296

/-- Two's-complement subtraction on unsigned 32-bit values, used to model
`x - y` on `uint32_t`. -/
def sub32 (x y : Nat) : Nat := (x + (4294967296 - y % 4294967296)) % 4294967296

/-- One loop iteration of `hash_fnv1a`: `hash ^= (uint8_t)c; hash *= 16777619`. -/
def fnv1aStep (h b : Nat) : Nat := m32 ((h ^^^ b % 256) * 16777619)

/-- `hash_fnv1a` from the source: accumulator `2166136261UL + seed`, then the
FNV-1a step for each byte of the word. -/
def hash_fnv1a (word : List Nat) (seed : Nat) : Nat :=
  word.foldl fnv1aStep (m32 (2166136261 + seed % 256))

/-- One loop iteration of `hash_djb2`: `hash = ((hash << 5) + hash) + c`,
each `uint32_t` operation wrapping. -/
def djb2Step (h b : Nat) : Nat := m32 (m32 (m32 (h * 32) + h) + b % 256)

/-- `hash_djb2` from the source: accumulator `5381UL + seed`. -/
def hash_djb2 (word : List Nat) (seed : Nat) : Nat :=
  word.foldl djb2Step (m32 (5381 + seed % 256))

/-- One loop iteration of `hash_sdbm`:
`hash = c + (hash << 6) + (hash << 16) - hash` on `uint32_t`. -/
def sdbmStep (h b : Nat) : Nat :=
  sub32 (m32 (m32 (b % 256 + m32 (h * 64)) + m32 (h * 65536))) h

/-- `hash_sdbm` from the source: accumulator starts at `seed`. -/
def hash_sdbm (word : List Nat) (seed : Nat) : Nat :=
  word.foldl sdbmStep (m32 (seed % 256))

/-- One loop iteration of `hash_jenkins`:
`hash += c; hash += hash << 10; hash ^= hash >> 6`. -/
def jenkinsStep (h b : Nat) : Nat :=
  let h1 := m32 (h + b % 256)
  let h2 := m32 (h1 + m32 (h1 * 1024))
  h2 ^^^ h2 / 64

/-- The three finalize steps of `hash_jenkins`:
`hash += hash << 3; hash ^= hash >> 11; hash += hash << 15`. -/
def jenkinsFinal (h : Nat) : Nat :=
  let f1 := m32 (h + m32 (h * 8))
  let f2 := f1 ^^^ f1 / 2048
  m32 (f2 + m32 (f2 * 32768))

/-- `hash_jenkins` from the source: accumulator starts at `seed`, loop then
finalize. -/
def hash_jenkins (word : List Nat) (seed : Nat) : Nat :=
  jenkinsFinal (word.foldl jenkinsStep (m32 (seed % 256)))

/-- One loop iteration of `hash_murmur`:
`hash ^= (uint8_t)c; hash *= 0x5bd1e995; hash ^= hash >> 15`. -/
def murmurStep (h b : Nat) : Nat :=
  let h1 := h ^^^ b % 256
  let h2 := m32 (h1 * 0x5bd1e995)
  h2 ^^^ h2 / 32768

/-- `hash_murmur` from the source: accumulator `seed + 0x9747b28cUL`. -/
def hash_murmur (word : List Nat) (seed : Nat) : Nat :=
  word.foldl murmurStep (m32 (seed % 256 + 0x9747b28c))

/-- Follows the spec's words (§4.1 item 1): accumulator starts at
`2166136261 + seed`; for each byte, XOR into accumulator then multiply by
`16777619`, both mod 2^32. -/
def specHash_fnv1a (word : List Nat) (seed : Nat) : Nat :=
  word.foldl (fun h b => (h ^^^ b) * 16777619 % 4294967296) (2166136261 + seed)

/-- Follows the spec's words (§4.1 item 2): accumulator starts at
`5381 + seed`; for each byte, `acc = acc*33 + byte` mod 2^32. -/
def specHash_djb2 (word : List Nat) (seed : Nat) : Nat :=
  word.foldl (fun h b => (h * 33 + b) % 4294967296) (5381 + seed)

/-- Follows the spec's words (§4.1 item 3): accumulator starts at `seed`;
for each byte, `acc = byte + (acc<<6) + (acc<<16) - acc` mod 2^32. -/
def specHash_sdbm (word : List Nat) (seed : Nat) : Nat :=
  word.foldl (fun h b => (b + h * 64 + h * 65536 - h) % 4294967296) seed

/-- Follows the spec's words (§4.1 item 4): accumulator starts at `seed`;
per byte `acc+=byte; acc+=acc<<10; acc^=acc>>6`; after the loop
`acc+=acc<<3; acc^=acc>>11; acc+=acc<<15`, all on wrapping 32-bit values. -/
def specHash_jenkins (word : List Nat) (seed : Nat) : Nat :=
  let h := word.foldl
    (fun h b =>
      let a1 := (h + b) % 4294967296
      let a2 := (a1 + a1 * 1024) % 4294967296
      a2 ^^^ a2 / 64) seed
  let f1 := (h + h * 8) % 4294967296
  let f2 := f1 ^^^ f1 / 2048
  (f2 + f2 * 32768) % 4294967296

/-- Follows the spec's words (§4.1 item 5): accumulator starts at
`seed + 0x9747b28c`; per byte `acc^=byte; acc*=0x5bd1e995; acc^=acc>>15`. -/
def specHash_murmur (word : List Nat) (seed : Nat) : Nat :=
  word.foldl
    (fun h b =>
      let h1 := h ^^^ b
      let h2 := h1 * 0x5bd1e995 % 4294967296
      h2 ^^^ h2 / 32768) (seed + 0x9747b28c)

/-- Value of an `int16_t` after storing the low 16 bits of a value, as on the
LLVM-MOS target (`current_record = record_num` stores a `uint16_t` into an
`int16_t`). -/
def toInt16 (n : Nat) : Int :=
  if n % 65536 < 32768 then ((n % 65536 : Nat) : Int)
  else ((n % 65536 : Nat) : Int) - 65536

/-- Value of an `int16_t` when converted to `unsigned int` (16-bit on
LLVM-MOS), as happens in the comparison `rec != current_record` between a
`uint16_t` and an `int16_t`. -/
def toUInt16 (z : Int) : Nat := (z % 65536).toNat

theorem toUInt16_toInt16 (n : Nat) : toUInt16 (toInt16 n) = n % 65536 := by
  unfold toInt16 toUInt16
  split <;> omega

theorem toUInt16_neg_one : toUInt16 (-1) = 65535 := by decide

namespace V2

/-!
Embedding of the current version, `src/spellcheck.c`.

The store is modelled as an oracle `Disk`: `data r j` is byte `j` (0-based,
`j < 254`) of logical record `r` (0-based) of `BLOOM.DAT`; `chkoutOk` and
`chkinOk` tell whether `cbm_k_chkout(15)` / `cbm_k_chkin(bloom_lfn)`
succeed.  The record read loop calls `cbm_k_basin()` with no status check,
so reading cannot fail in the model once `chkin` succeeded, exactly as in
the source.  `printf`, the progress periods and the ignored
`check_dos_status("position", ...)` result have no functional effect and
are not modelled.
-/

/-- `RECORD_SIZE` in `src/spellcheck.c`: CBM DOS REL max record size. -/
def RECORD_SIZE : Nat := 254

/-- Modelled from the spec: `bloom_config.h` is not in the repository; the
spec fixes `hash_count K` at 5, matching the five initializers of the
`hash_functions` array in the source. -/
def NUM_HASH_FUNCTIONS : Nat := 5

/-- The `hash_functions` array: dispatch by index, as in
`hash_functions[i](word, i)`. -/
def hashAt : Nat → List Nat → Nat → Nat
  | 0 => hash_fnv1a
  | 1 => hash_djb2
  | 2 => hash_sdbm
  | 3 => hash_jenkins
  | _ => hash_murmur

/-- `byte_off = bit_pos / BITS_PER_BYTE` (`uint32_t`). -/
def byteOffOf (p : Nat) : Nat := p / 8

/-- `bit_off = bit_pos % BITS_PER_BYTE` (`uint8_t`). -/
def bitOffOf (p : Nat) : Nat := p % 8

/-- `rec = byte_off / RECORD_SIZE`, truncated by the `uint16_t` store. -/
def recOf (p : Nat) : Nat := byteOffOf p / RECORD_SIZE % 65536

/-- `byte_in_rec = byte_off % RECORD_SIZE` (`uint16_t`, always < 254). -/
def byteInRecOf (p : Nat) : Nat := byteOffOf p % RECORD_SIZE

/-- The module-level mutable state of the engine: `current_record`
(an `int16_t`, -1 = none loaded) and `record_buffer[RECORD_SIZE]`. -/
structure MState where
  current_record : Int
  record_buffer : Nat → Nat

/-- State at program start: `current_record = -1`, `record_buffer` a
zero-initialized static array. -/
def initState : MState := ⟨-1, fun _ => 0⟩

/-- The record-store oracle for one `check_word` run. -/
structure Disk where
  data : Nat → Nat → Nat
  chkoutOk : Bool
  chkinOk : Bool

/-- The store boundary reports no error during the run. -/
def errorFree (dk : Disk) : Prop := dk.chkoutOk = true ∧ dk.chkinOk = true

instance (dk : Disk) : Decidable (errorFree dk) := by
  unfold errorFree; infer_instance

/-- Result of one `bloom_read_bit` call, instrumented with the number of
POSITION commands sent and full records read. -/
structure ProbeOut where
  result : Bool
  state : MState
  posCmds : Nat
  recReads : Nat

/-- `bloom_read_bit` from `src/spellcheck.c`: translate the bit position to
(record, byte, bit), refresh the one-record cache on a record-number miss
(POSITION command with the 1-based DOS record number, then a full
`RECORD_SIZE`-byte read with no status check), and test the bit in the
cached buffer.  `chkout`/`chkin` failure prints an error and returns
`false` with the cache untouched. -/
def bloom_read_bit (dk : Disk) (s : MState) (bit_pos : Nat) : ProbeOut :=
  if recOf bit_pos ≠ toUInt16 s.current_record then
    if dk.chkoutOk = false then ⟨false, s, 0, 0⟩
    else if dk.chkinOk = false then ⟨false, s, 1, 0⟩
    else
      let dos_rec := (recOf bit_pos + 1) % 65536
      let buf : Nat → Nat := fun j =>
        if j < RECORD_SIZE then dk.data (dos_rec - 1) j else s.record_buffer j
      ⟨Nat.testBit (buf (byteInRecOf bit_pos)) (bitOffOf bit_pos),
        ⟨toInt16 (recOf bit_pos), buf⟩, 1, 1⟩
  else
    ⟨Nat.testBit (s.record_buffer (byteInRecOf bit_pos)) (bitOffOf bit_pos), s, 0, 0⟩

/-- Result of the bit-checking loop of `check_word`, instrumented with the
totals of POSITION commands and record reads, and with the list of bit
positions actually consulted before the loop stopped. -/
structure RunOut where
  result : Bool
  state : MState
  posCmds : Nat
  recReads : Nat
  consulted : List Nat

/-- The final loop of `check_word`: probe each position in order and return
`false` at the first clear bit. -/
def checkLoop (dk : Disk) : MState → List Nat → RunOut
  | s, [] => ⟨true, s, 0, 0, []⟩
  | s, p :: rest =>
    let o := bloom_read_bit dk s p
    if o.result then
      let r := checkLoop dk o.state rest
      ⟨r.result, r.state, o.posCmds + r.posCmds, o.recReads + r.recReads, p :: r.consulted⟩
    else ⟨false, o.state, o.posCmds, o.recReads, [p]⟩

/-- The first loop of `check_word`:
`bit_positions[i] = hash_functions[i](word, i) % BLOOM_SIZE_BITS`.
`BLOOM_SIZE_BITS` comes from the missing `bloom_config.h` and is kept as
the parameter `M`. -/
def bitPositions (M : Nat) (word : List Nat) : List Nat :=
  (List.range NUM_HASH_FUNCTIONS).map (fun i => hashAt i word i % M)

/-- `k` compare-and-swap steps of one inner bubble-sort pass
(`if (bit_positions[j] < bit_positions[j + 1])` swap), starting at the head
of the list. -/
def bubblePassN : Nat → List Nat → List Nat
  | 0, l => l
  | _ + 1, [] => []
  | _ + 1, [a] => [a]
  | k + 1, a :: b :: rest =>
    if a < b then b :: bubblePassN k (a :: rest) else a :: bubblePassN k (b :: rest)

/-- The bubble sort of `check_word` on the 5-entry `bit_positions` array:
outer passes `i = 0..3`, pass `i` doing `NUM_HASH_FUNCTIONS - 1 - i`
compare-and-swaps. -/
def sortPositions (l : List Nat) : List Nat :=
  bubblePassN 1 (bubblePassN 2 (bubblePassN 3 (bubblePassN 4 l)))

/-- `check_word` from `src/spellcheck.c`: compute the five bit positions,
bubble-sort them descending, then check the bits in sorted order with
early exit at the first clear bit. -/
def check_word (M : Nat) (dk : Disk) (s : MState) (word : List Nat) : RunOut :=
  checkLoop dk s (sortPositions (bitPositions M word))

/-- Bit `p` of the persisted filter as laid out by the external builder
(spec §6): bit `p` is bit `p % 8` of byte `(p/8) % R` of record `(p/8) / R`. -/
def filterBit (dk : Disk) (p : Nat) : Bool :=
  Nat.testBit (dk.data (p / 8 / RECORD_SIZE) (p / 8 % RECORD_SIZE)) (p % 8)

/-- Bit positions the store can physically address: REL records are 1-based
`uint16_t`, so at most 65535 records of `RECORD_SIZE` bytes exist. -/
def CAP : Nat := 8 * RECORD_SIZE * 65535

/-- Cache coherence: either no record is loaded (`current_record = -1`, as
at program start) or `current_record` holds a record number whose full
`RECORD_SIZE` bytes are in `record_buffer`. -/
def StateOK (dk : Disk) (s : MState) : Prop :=
  s.current_record = -1 ∨
    ∃ r, r < 65535 ∧ s.current_record = toInt16 r ∧
      ∀ j, j < RECORD_SIZE → s.record_buffer j = dk.data r j

end V2

namespace V1

/-!
Embedding of the older snapshot, `spellcheck.c` at the repository root.

Its store is a sequential CBM file: `open_bloom_file` resets the stream,
`seek_to_record` skips `record_num * RECORD_SIZE` bytes one `cbm_k_basin`
at a time checking `cbm_k_readst` after each, `read_current_record` reads
the `RECORD_SIZE` bytes of the record into `record_buffer`, again checking
`cbm_k_readst` after each byte.  The oracle `Store` gives the sequential
stream contents (`byteAt i` = the `i`-th byte after a fresh open) and
`readErrAt i` = whether `cbm_k_readst()` reports an error right after
reading byte `i`. -/

/-- `RECORD_SIZE` in the root `spellcheck.c`. -/
def RECORD_SIZE : Nat := 256

/-- `bit_offset = bit_position % 8` (`uint8_t`). -/
def bitOffOf (p : Nat) : Nat := p % 8

/-- `record_num = byte_offset / RECORD_SIZE` truncated to `uint16_t`. -/
def recOf (p : Nat) : Nat := p / 8 / RECORD_SIZE % 65536

/-- `byte_in_record = byte_offset % RECORD_SIZE` (`uint16_t`). -/
def byteInRecOf (p : Nat) : Nat := p / 8 % RECORD_SIZE

/-- Sequential-store oracle for the older snapshot. -/
structure Store where
  openOk : Bool
  byteAt : Nat → Nat
  readErrAt : Nat → Bool

/-- Engine state of the older snapshot: `current_record` (`int16_t`,
-1 = none), `record_buffer[256]`, and the position of the sequential
stream within the open file. -/
structure SState where
  current_record : Int
  record_buffer : Nat → Nat
  pos : Nat

/-- State at program start (statics zero-initialized, `current_record = -1`). -/
def initState : SState := ⟨-1, fun _ => 0, 0⟩

/-- `seek_to_record`: no-op when already positioned; otherwise close and
reopen (resetting the stream and setting `current_record = -1`), then skip
`record_num * RECORD_SIZE` bytes, failing at the first read-status error;
on success record the new `current_record`. -/
def seek_to_record (st : Store) (s : SState) (record_num : Nat) : Bool × SState :=
  if record_num % 65536 = toUInt16 s.current_record then (true, s)
  else if st.openOk = false then (false, ⟨-1, s.record_buffer, 0⟩)
  else
    let byte_offset := record_num % 65536 * RECORD_SIZE
    match (List.range byte_offset).find? st.readErrAt with
    | some i => (false, ⟨-1, s.record_buffer, i + 1⟩)
    | none => (true, ⟨toInt16 (record_num % 65536), s.record_buffer, byte_offset⟩)

/-- `read_current_record`: read `RECORD_SIZE` bytes of the stream into
`record_buffer`, checking `cbm_k_readst` after each byte; a read-status
error after byte `i` leaves bytes `0..i` written and returns `false`. -/
def read_current_record (st : Store) (s : SState) : Bool × SState :=
  match (List.range RECORD_SIZE).find? (fun i => st.readErrAt (s.pos + i)) with
  | some i =>
    (false, ⟨s.current_record,
      fun j => if j ≤ i then st.byteAt (s.pos + j) else s.record_buffer j,
      s.pos + i + 1⟩)
  | none =>
    (true, ⟨s.current_record,
      fun j => if j < RECORD_SIZE then st.byteAt (s.pos + j) else s.record_buffer j,
      s.pos + RECORD_SIZE⟩)

/-- `check_bit` from the root `spellcheck.c`: derive (record, byte, bit);
on a record-number miss, seek then read the full record, returning `false`
if either fails; finally test the bit in `record_buffer`. -/
def check_bit (st : Store) (s : SState) (bit_position : Nat) : Bool × SState :=
  if recOf bit_position ≠ toUInt16 s.current_record then
    match seek_to_record st s (recOf bit_position) with
    | (false, s1) => (false, s1)
    | (true, s1) =>
      match read_current_record st s1 with
      | (false, s2) => (false, s2)
      | (true, s2) =>
        (Nat.testBit (s2.record_buffer (byteInRecOf bit_position)) (bitOffOf bit_position), s2)
  else
    (Nat.testBit (s.record_buffer (byteInRecOf bit_position)) (bitOffOf bit_position), s)

/-- A store whose bytes are all `0xFF` and whose read status reports an
error right after the very first byte read in a session. -/
def errStore : Store := ⟨true, fun _ => 255, fun i => i == 0⟩

end V1

namespace V2

/-!
DOS status decoding (`read_dos_status` / `check_dos_status`), present only
in `src/spellcheck.c`.  The channel is modelled by whether
`cbm_k_chkin(15)` succeeds and by the first two characters read from the
command channel; the free-text message that follows is diagnostic only and
does not influence the returned code.
-/

/-- The error code computed by `read_dos_status`: 255 when switching input
to the command channel fails, otherwise the two leading characters decoded
as decimal digits (a non-digit contributes nothing). -/
def read_dos_status_code (chkinOk : Bool) (c1 c2 : Nat) : Nat :=
  if chkinOk = false then 255
  else
    (if 48 ≤ c1 ∧ c1 ≤ 57 then (c1 - 48) * 10 else 0) +
      (if 48 ≤ c2 ∧ c2 ≤ 57 then c2 - 48 else 0)

/-- The scanning loop of `check_dos_status`:
`for (i = 0; i < num_ok_codes && !is_ok; i++) if (err == ok_codes[i]) is_ok = true`. -/
def okCodesLoop (err : Nat) (ok_codes : List Nat) (num : Nat) (i : Nat) (is_ok : Bool) : Bool :=
  if h : i < num ∧ is_ok = false then
    okCodesLoop err ok_codes num (i + 1) (if err = ok_codes.getD i 0 then true else is_ok)
  else is_ok
termination_by num - i
decreasing_by omega

/-- `check_dos_status`, reduced to its classification logic: `is_ok`
starts as `err == 0` and the loop may set it from the caller-supplied
allow-list; printing is diagnostic only. -/
def check_dos_status (err : Nat) (ok_codes : List Nat) (num_ok_codes : Nat) : Bool :=
  okCodesLoop err ok_codes num_ok_codes 0 (err == 0)

/-- An error-free disk whose filter has every bit set. -/
def diskOnes : Disk := ⟨fun _ _ => 255, true, true⟩

/-- An error-free disk whose filter has every bit clear. -/
def diskZero : Disk := ⟨fun _ _ => 0, true, true⟩

/-- A disk whose filter has every bit set but whose `cbm_k_chkout(15)`
fails, so no record can be fetched. -/
def diskChkoutFail : Disk := ⟨fun _ _ => 255, false, true⟩

end V2

/-- The word CAT as its ASCII bytes, the spec's test-vector word. -/
def wordCAT : List Nat := [67, 65, 84]

/-- Two folds over the same list agree when their step functions agree on
all states satisfying an invariant that the fold preserves. -/
theorem foldl_eq_of_inv (inv : Nat → Prop) (f g : Nat → Nat → Nat) :
    ∀ (l : List Nat) (a : Nat), inv a →
      (∀ x b, inv x → b ∈ l → f x b = g x b ∧ inv (f x b)) →
      l.foldl f a = l.foldl g a ∧ inv (l.foldl f a) := by
  intro l
  induction l with
  | nil => intro a ha _; exact ⟨rfl, ha⟩
  | cons b l ih =>
    intro a ha hstep
    obtain ⟨heq, hinv⟩ := hstep a b ha (List.mem_cons_self b l)
    have hrest := ih (f a b) hinv (fun x c hx hc => hstep x c hx (List.mem_cons_of_mem _ hc))
    rw [List.foldl_cons, List.foldl_cons, ← heq]
    exact hrest

theorem two_pow_32 : (4294967296 : Nat) = 2 ^ 32 := by norm_num

theorem hash_fnv1a_eq_spec (w : List Nat) (s : Nat) (hw : ∀ b ∈ w, b < 256) (hs : s < 256) :
    hash_fnv1a w s = specHash_fnv1a w s := by
  unfold hash_fnv1a specHash_fnv1a
  have init : m32 (2166136261 + s % 256) = 2166136261 + s := by unfold m32; omega
  rw [init]
  refine (foldl_eq_of_inv (fun h => h < 4294967296) _ _ w _ (by omega) ?_).1
  intro x b hx hb
  constructor
  · simp only [fnv1aStep, m32, Nat.mod_eq_of_lt (hw b hb)]
  · simp only [fnv1aStep, m32]; omega

theorem hash_djb2_eq_spec (w : List Nat) (s : Nat) (hw : ∀ b ∈ w, b < 256) (hs : s < 256) :
    hash_djb2 w s = specHash_djb2 w s := by
  unfold hash_djb2 specHash_djb2
  have init : m32 (5381 + s % 256) = 5381 + s := by unfold m32; omega
  rw [init]
  refine (foldl_eq_of_inv (fun h => h < 4294967296) _ _ w _ (by omega) ?_).1
  intro x b hx hb
  have hb' := hw b hb
  constructor
  · simp only [djb2Step, m32]; omega
  · simp only [djb2Step, m32]; omega

theorem hash_sdbm_eq_spec (w : List Nat) (s : Nat) (hw : ∀ b ∈ w, b < 256) (hs : s < 256) :
    hash_sdbm w s = specHash_sdbm w s := by
  unfold hash_sdbm specHash_sdbm
  have init : m32 (s % 256) = s := by unfold m32; omega
  rw [init]
  refine (foldl_eq_of_inv (fun h => h < 4294967296) _ _ w _ (by omega) ?_).1
  intro x b hx hb
  have hb' := hw b hb
  constructor
  · simp only [sdbmStep, sub32, m32]; omega
  · simp only [sdbmStep, sub32, m32]; omega

theorem xor_div_lt (x c : Nat) (hx : x < 4294967296) : x ^^^ x / c < 4294967296 := by
  rw [two_pow_32] at hx ⊢
  exact Nat.xor_lt_two_pow hx (Nat.lt_of_le_of_lt (Nat.div_le_self x c) hx)

theorem hash_jenkins_eq_spec (w : List Nat) (s : Nat) (hw : ∀ b ∈ w, b < 256) (hs : s < 256) :
    hash_jenkins w s = specHash_jenkins w s := by
  unfold hash_jenkins specHash_jenkins
  have init : m32 (s % 256) = s := by unfold m32; omega
  rw [init]
  obtain ⟨hfold, hinv⟩ :=
    foldl_eq_of_inv (fun h => h < 4294967296) jenkinsStep
      (fun h b =>
        let a1 := (h + b) % 4294967296
        let a2 := (a1 + a1 * 1024) % 4294967296
        a2 ^^^ a2 / 64) w s (by omega)
      (fun x b hx hb => by
        have hb' := hw b hb
        constructor
        · simp only [jenkinsStep, m32, Nat.mod_eq_of_lt hb', Nat.add_mod_mod]
        · simp only [jenkinsStep, m32]
          exact xor_div_lt _ 64 (by omega))
  rw [hfold]
  set X := w.foldl _ s with hX
  simp only [jenkinsFinal, m32, Nat.add_mod_mod]

theorem hash_murmur_eq_spec (w : List Nat) (s : Nat) (hw : ∀ b ∈ w, b < 256) (hs : s < 256) :
    hash_murmur w s = specHash_murmur w s := by
  unfold hash_murmur specHash_murmur
  have init : m32 (s % 256 + 0x9747b28c) = s + 0x9747b28c := by unfold m32; omega
  rw [init]
  refine (foldl_eq_of_inv (fun h => h < 4294967296) _ _ w _ (by omega) ?_).1
  intro x b hx hb
  constructor
  · simp only [murmurStep, m32, Nat.mod_eq_of_lt (hw b hb)]
  · simp only [murmurStep, m32]
    exact xor_div_lt _ 32768 (by omega)

/-- C2: each of the five hash functions is a pure function of (word, seed)
computing exactly its documented recurrence over unsigned 32-bit
wraparound arithmetic: the source functions coincide with the
recurrences transcribed from the spec (specHash_*). -/
theorem hashes_match_documented_recurrences (w : List Nat) (s : Nat)
    (hw : ∀ b ∈ w, b < 256) (hs : s < 256) :
    hash_fnv1a w s = specHash_fnv1a w s ∧ hash_djb2 w s = specHash_djb2 w s ∧
    hash_sdbm w s = specHash_sdbm w s ∧ hash_jenkins w s = specHash_jenkins w s ∧
    hash_murmur w s = specHash_murmur w s :=
  ⟨hash_fnv1a_eq_spec w s hw hs, hash_djb2_eq_spec w s hw hs, hash_sdbm_eq_spec w s hw hs,
    hash_jenkins_eq_spec w s hw hs, hash_murmur_eq_spec w s hw hs⟩

/-- Witness for C2 at the spec's test-vector word CAT with seed 0. -/
theorem hashes_match_documented_recurrences_witness :
    (∀ b ∈ wordCAT, b < 256) ∧ (0 : Nat) < 256 ∧
      (hash_fnv1a wordCAT 0 = specHash_fnv1a wordCAT 0 ∧
        hash_djb2 wordCAT 0 = specHash_djb2 wordCAT 0 ∧
        hash_sdbm wordCAT 0 = specHash_sdbm wordCAT 0 ∧
        hash_jenkins wordCAT 0 = specHash_jenkins wordCAT 0 ∧
        hash_murmur wordCAT 0 = specHash_murmur wordCAT 0) :=
  ⟨by decide, by decide, hashes_match_documented_recurrences wordCAT 0 (by decide) (by decide)⟩

/-- C10: for every bit position, in both versions, the record-buffer byte
index is the byte offset mod RECORD_SIZE, hence strictly below
RECORD_SIZE, and the bit-mask shift amount is the bit position mod 8,
hence strictly below 8 — no bit position can index outside the buffer. -/
theorem bit_access_in_bounds (p : Nat) :
    V2.byteInRecOf p < V2.RECORD_SIZE ∧ V2.bitOffOf p < 8 ∧
    V1.byteInRecOf p < V1.RECORD_SIZE ∧ V1.bitOffOf p < 8 := by
  unfold V2.byteInRecOf V2.bitOffOf V2.byteOffOf V2.RECORD_SIZE
    V1.byteInRecOf V1.bitOffOf V1.RECORD_SIZE
  refine ⟨?_, ?_, ?_, ?_⟩ <;> omega

/-- C3: the i-th bit position computed by check_word is
`hash_i(word, seed = i) mod M`, where the seed passed to the i-th hash
function is the 0-based index i itself; it is a pure function of the word
and M. -/
theorem bit_position_formula (M : Nat) (word : List Nat) (i : Nat)
    (hi : i < V2.NUM_HASH_FUNCTIONS) :
    (V2.bitPositions M word).getD i 0 = V2.hashAt i word i % M := by
  have hi5 : i < 5 := hi
  interval_cases i <;> rfl

/-- Witness for C3 at i = 2, M = 64, word CAT. -/
theorem bit_position_formula_witness :
    2 < V2.NUM_HASH_FUNCTIONS ∧
      (V2.bitPositions 64 wordCAT).getD 2 0 = V2.hashAt 2 wordCAT 2 % 64 :=
  ⟨by decide, bit_position_formula 64 wordCAT 2 (by decide)⟩

theorem bubblePassN_perm : ∀ (k : Nat) (l : List Nat), (V2.bubblePassN k l).Perm l := by
  intro k
  induction k with
  | zero => intro l; exact List.Perm.refl l
  | succ k ih =>
    intro l
    match l with
    | [] => exact List.Perm.refl _
    | [a] => exact List.Perm.refl _
    | a :: b :: rest =>
      simp only [V2.bubblePassN]
      split
      · exact ((ih (a :: rest)).cons b).trans (List.Perm.swap a b rest)
      · exact (ih (b :: rest)).cons a

theorem bubblePassN_take_drop : ∀ (k : Nat) (l : List Nat),
    V2.bubblePassN k l = V2.bubblePassN k (l.take (k + 1)) ++ l.drop (k + 1) := by
  intro k
  induction k with
  | zero =>
    intro l
    simp only [V2.bubblePassN]
    exact (List.take_append_drop 1 l).symm
  | succ k ih =>
    intro l
    match l with
    | [] => simp [V2.bubblePassN]
    | [a] => simp [V2.bubblePassN]
    | a :: b :: rest =>
      simp only [List.take_succ_cons, List.drop_succ_cons, V2.bubblePassN]
      split
      · rw [ih (a :: rest)]
        simp [List.take_succ_cons, List.drop_succ_cons]
      · rw [ih (b :: rest)]
        simp [List.take_succ_cons, List.drop_succ_cons]

theorem bubblePassN_last_min : ∀ (k : Nat) (l : List Nat), l.length ≤ k + 1 → l ≠ [] →
    ∃ l2 x, V2.bubblePassN k l = l2 ++ [x] ∧ ∀ y ∈ l, x ≤ y := by
  intro k
  induction k with
  | zero =>
    intro l hlen hne
    match l with
    | [] => exact absurd rfl hne
    | [a] => exact ⟨[], a, rfl, by simp⟩
    | a :: b :: rest => simp only [List.length_cons] at hlen; omega
  | succ k ih =>
    intro l hlen hne
    match l with
    | [] => exact absurd rfl hne
    | [a] => exact ⟨[], a, rfl, by simp⟩
    | a :: b :: rest =>
      by_cases hab : a < b
      · rw [show V2.bubblePassN (k + 1) (a :: b :: rest) = b :: V2.bubblePassN k (a :: rest)
          from by simp [V2.bubblePassN, hab]]
        obtain ⟨l2, x, hx, hmin⟩ := ih (a :: rest)
          (by simp only [List.length_cons] at hlen ⊢; omega) (by simp)
        refine ⟨b :: l2, x, by simp [hx], ?_⟩
        intro y hy
        rcases List.mem_cons.mp hy with rfl | hy
        · exact hmin y (List.mem_cons_self ..)
        rcases List.mem_cons.mp hy with rfl | hy
        · exact le_trans (hmin a (List.mem_cons_self ..)) (le_of_lt hab)
        · exact hmin y (List.mem_cons_of_mem a hy)
      · rw [show V2.bubblePassN (k + 1) (a :: b :: rest) = a :: V2.bubblePassN k (b :: rest)
          from by simp [V2.bubblePassN, hab]]
        obtain ⟨l2, x, hx, hmin⟩ := ih (b :: rest)
          (by simp only [List.length_cons] at hlen ⊢; omega) (by simp)
        refine ⟨a :: l2, x, by simp [hx], ?_⟩
        intro y hy
        rcases List.mem_cons.mp hy with rfl | hy
        · exact le_trans (hmin b (List.mem_cons_self ..)) (by omega)
        · exact hmin y hy

theorem sortPositions_perm (l : List Nat) : (V2.sortPositions l).Perm l := by
  unfold V2.sortPositions
  exact (bubblePassN_perm 1 _).trans ((bubblePassN_perm 2 _).trans
    ((bubblePassN_perm 3 _).trans (bubblePassN_perm 4 _)))

theorem sortPositions_sorted (l : List Nat) (hlen : l.length = 5) :
    List.Sorted (· ≥ ·) (V2.sortPositions l) := by
  unfold V2.sortPositions
  obtain ⟨l4, m4, h4, hmin4⟩ := bubblePassN_last_min 4 l (by omega)
    (by intro h; rw [h] at hlen; simp at hlen)
  have len4 : l4.length = 4 := by
    have hp := (bubblePassN_perm 4 l).length_eq
    rw [h4] at hp; simp at hp; omega
  obtain ⟨l3, m3, h3, hmin3⟩ := bubblePassN_last_min 3 l4 (by omega)
    (by intro h; rw [h] at len4; simp at len4)
  have len3 : l3.length = 3 := by
    have hp := (bubblePassN_perm 3 l4).length_eq
    rw [h3] at hp; simp at hp; omega
  obtain ⟨l2, m2, h2, hmin2⟩ := bubblePassN_last_min 2 l3 (by omega)
    (by intro h; rw [h] at len3; simp at len3)
  have len2 : l2.length = 2 := by
    have hp := (bubblePassN_perm 2 l3).length_eq
    rw [h2] at hp; simp at hp; omega
  have sub2 : ∀ z ∈ l2 ++ [m2], z ∈ l3 := fun z hz =>
    (bubblePassN_perm 2 l3).mem_iff.mp (h2 ▸ hz)
  have sub3 : ∀ z ∈ l3 ++ [m3], z ∈ l4 := fun z hz =>
    (bubblePassN_perm 3 l4).mem_iff.mp (h3 ▸ hz)
  have sub4 : ∀ z ∈ l4 ++ [m4], z ∈ l := fun z hz =>
    (bubblePassN_perm 4 l).mem_iff.mp (h4 ▸ hz)
  rw [h4]
  rw [show V2.bubblePassN 3 (l4 ++ [m4]) = V2.bubblePassN 3 l4 ++ [m4] from by
    rw [bubblePassN_take_drop 3 (l4 ++ [m4]), List.take_left' (by omega),
      List.drop_left' (by omega)]]
  rw [h3]
  rw [show V2.bubblePassN 2 (l3 ++ [m3] ++ [m4]) = V2.bubblePassN 2 l3 ++ [m3, m4] from by
    rw [List.append_assoc, bubblePassN_take_drop 2 (l3 ++ ([m3] ++ [m4])),
      List.take_left' (by omega), List.drop_left' (by omega)]
    simp]
  rw [h2]
  rw [show V2.bubblePassN 1 (l2 ++ [m2] ++ [m3, m4]) = V2.bubblePassN 1 l2 ++ [m2, m3, m4]
    from by
    rw [List.append_assoc, bubblePassN_take_drop 1 (l2 ++ ([m2] ++ [m3, m4])),
      List.take_left' (by omega), List.drop_left' (by omega)]
    simp]
  rcases l2 with _ | ⟨x, _ | ⟨y, _ | ⟨z, t⟩⟩⟩
  · simp at len2
  · simp at len2
  case cons.cons.cons => simp at len2
  have hxl3 : x ∈ l3 := sub2 x (by simp)
  have hyl3 : y ∈ l3 := sub2 y (by simp)
  have hm2l3 : m2 ∈ l3 := sub2 m2 (by simp)
  have hxl4 : x ∈ l4 := sub3 x (List.mem_append_left _ hxl3)
  have hyl4 : y ∈ l4 := sub3 y (List.mem_append_left _ hyl3)
  have hm2l4 : m2 ∈ l4 := sub3 m2 (List.mem_append_left _ hm2l3)
  have hm3l4 : m3 ∈ l4 := sub3 m3 (by simp)
  have hxl : x ∈ l := sub4 x (List.mem_append_left _ hxl4)
  have hyl : y ∈ l := sub4 y (List.mem_append_left _ hyl4)
  have hm2l : m2 ∈ l := sub4 m2 (List.mem_append_left _ hm2l4)
  have hm3l : m3 ∈ l := sub4 m3 (List.mem_append_left _ hm3l4)
  have i1 : m2 ≤ x := hmin2 x hxl3
  have i2 : m2 ≤ y := hmin2 y hyl3
  have i3 : m3 ≤ m2 := hmin3 m2 hm2l4
  have i4 : m3 ≤ x := hmin3 x hxl4
  have i5 : m3 ≤ y := hmin3 y hyl4
  have i6 : m4 ≤ m3 := hmin4 m3 hm3l
  have i7 : m4 ≤ m2 := hmin4 m2 hm2l
  have i8 : m4 ≤ x := hmin4 x hxl
  have i9 : m4 ≤ y := hmin4 y hyl
  by_cases hxy : x < y
  · simp only [V2.bubblePassN, if_pos hxy, List.cons_append, List.nil_append]
    simp only [List.sorted_cons, List.mem_cons, List.not_mem_nil, or_false, List.sorted_nil]
    constructor
    · intro b hb
      rcases hb with rfl | rfl | rfl | rfl <;> omega
    constructor
    · intro b hb
      rcases hb with rfl | rfl | rfl <;> omega
    constructor
    · intro b hb
      rcases hb with rfl | rfl <;> omega
    constructor
    · intro b hb
      rcases hb with rfl
      omega
    exact ⟨fun b hb => absurd hb (by simp), trivial⟩
  · simp only [V2.bubblePassN, if_neg hxy, List.cons_append, List.nil_append]
    simp only [List.sorted_cons, List.mem_cons, List.not_mem_nil, or_false, List.sorted_nil]
    constructor
    · intro b hb
      rcases hb with rfl | rfl | rfl | rfl <;> omega
    constructor
    · intro b hb
      rcases hb with rfl | rfl | rfl <;> omega
    constructor
    · intro b hb
      rcases hb with rfl | rfl <;> omega
    constructor
    · intro b hb
      rcases hb with rfl
      omega
    exact ⟨fun b hb => absurd hb (by simp), trivial⟩

theorem checkLoop_consulted_append (dk : V2.Disk) :
    ∀ (l : List Nat) (s : V2.MState), ∃ t, (V2.checkLoop dk s l).consulted ++ t = l := by
  intro l
  induction l with
  | nil => intro s; exact ⟨[], rfl⟩
  | cons p rest ih =>
    intro s
    simp only [V2.checkLoop]
    split
    · obtain ⟨t, ht⟩ := ih (V2.bloom_read_bit dk s p).state
      exact ⟨t, by simp [ht]⟩
    · exact ⟨rest, rfl⟩

/-- C5: before any bit is looked up, check_word sorts the K computed bit
positions into descending order — a permutation of the computed
positions — and then probes the store in that sorted order: the
positions it consults are an initial segment of the sorted list. -/
theorem check_word_sorts_descending (M : Nat) (word : List Nat) (dk : V2.Disk)
    (s : V2.MState) :
    (V2.sortPositions (V2.bitPositions M word)).Perm (V2.bitPositions M word) ∧
    List.Sorted (· ≥ ·) (V2.sortPositions (V2.bitPositions M word)) ∧
    ∃ t, (V2.check_word M dk s word).consulted ++ t =
      V2.sortPositions (V2.bitPositions M word) :=
  ⟨sortPositions_perm _,
    sortPositions_sorted _ (by simp [V2.bitPositions, V2.NUM_HASH_FUNCTIONS]),
    checkLoop_consulted_append dk _ s⟩

theorem recOf_lt (p : Nat) : V2.recOf p < 65536 := by
  show p / 8 / 254 % 65536 < 65536
  omega

theorem recOf_small (p : Nat) (hp : p < V2.CAP) :
    V2.recOf p = p / 8 / V2.RECORD_SIZE ∧ p / 8 / V2.RECORD_SIZE < 65535 := by
  have hcap : p < 8 * 254 * 65535 := hp
  show p / 8 / 254 % 65536 = p / 8 / 254 ∧ p / 8 / 254 < 65535
  rw [Nat.div_div_eq_div_mul]
  omega

/-- Reading one bit on an error-free store from a coherent state yields the
persisted filter bit and preserves coherence. -/
theorem bloom_read_bit_ok (dk : V2.Disk) (s : V2.MState) (p : Nat)
    (hok : V2.errorFree dk) (hs : V2.StateOK dk s) (hp : p < V2.CAP) :
    (V2.bloom_read_bit dk s p).result = V2.filterBit dk p ∧
    V2.StateOK dk (V2.bloom_read_bit dk s p).state := by
  obtain ⟨hrec, hlt⟩ := recOf_small p hp
  have hbir : V2.byteInRecOf p < V2.RECORD_SIZE := by
    show p / 8 % 254 < 254
    omega
  by_cases hhit : V2.recOf p = toUInt16 s.current_record
  · -- cache hit
    rcases hs with hnone | ⟨r, hr, hcur, hbuf⟩
    · rw [hnone, toUInt16_neg_one] at hhit
      rw [hrec] at hhit
      omega
    · have hcur' : toUInt16 s.current_record = r := by
        rw [hcur, toUInt16_toInt16, Nat.mod_eq_of_lt (by omega)]
      simp only [V2.bloom_read_bit, if_neg (not_not_intro hhit)]
      refine ⟨?_, Or.inr ⟨r, hr, hcur, hbuf⟩⟩
      rw [hbuf _ hbir]
      have hr' : r = p / 8 / V2.RECORD_SIZE := by
        rw [← hcur', ← hhit, hrec]
      rw [hr']
      rfl
  · -- cache miss: position and read the record
    simp only [V2.bloom_read_bit, if_pos hhit]
    rw [if_neg (by rw [hok.1]; simp), if_neg (by rw [hok.2]; simp)]
    have hdos : (V2.recOf p + 1) % 65536 - 1 = V2.recOf p := by
      have := recOf_lt p
      omega
    refine ⟨?_, ?_⟩
    · simp only [if_pos hbir, hdos]
      rw [hrec]
      rfl
    · refine Or.inr ⟨V2.recOf p, by rw [hrec]; exact hlt, rfl, ?_⟩
      intro j hj
      simp only [if_pos hj, hdos]

/-- Running the bit-check loop on an error-free store from a coherent
state returns the conjunction of the persisted filter bits, preserves
coherence, and consults positions up to and including the first clear
bit. -/
theorem checkLoop_ok (dk : V2.Disk) (hok : V2.errorFree dk) :
    ∀ (l : List Nat) (s : V2.MState), V2.StateOK dk s → (∀ p ∈ l, p < V2.CAP) →
      (V2.checkLoop dk s l).result = l.all (V2.filterBit dk) ∧
      V2.StateOK dk (V2.checkLoop dk s l).state ∧
      (V2.checkLoop dk s l).consulted =
        l.takeWhile (V2.filterBit dk) ++ (l.dropWhile (V2.filterBit dk)).take 1 := by
  intro l
  induction l with
  | nil => intro s hs _; exact ⟨rfl, hs, rfl⟩
  | cons p rest ih =>
    intro s hs hcap
    obtain ⟨hres, hst⟩ := bloom_read_bit_ok dk s p hok hs (hcap p (List.mem_cons_self ..))
    simp only [V2.checkLoop]
    by_cases hbit : V2.filterBit dk p = true
    · obtain ⟨ih1, ih2, ih3⟩ := ih (V2.bloom_read_bit dk s p).state hst
        (fun q hq => hcap q (List.mem_cons_of_mem _ hq))
      rw [if_pos (by rw [hres]; exact hbit)]
      refine ⟨?_, ih2, ?_⟩
      · simp [List.all_cons, hbit, ih1]
      · simp [List.takeWhile_cons, List.dropWhile_cons, hbit, ih3]
    · rw [if_neg (by rw [hres]; simpa using hbit)]
      have hbit' : V2.filterBit dk p = false := by
        revert hbit; cases V2.filterBit dk p <;> simp
      refine ⟨?_, hst, ?_⟩
      · simp [List.all_cons, hbit']
      · simp [List.takeWhile_cons, List.dropWhile_cons, hbit']

theorem perm_all_eq {l1 l2 : List Nat} (hp : l1.Perm l2) (f : Nat → Bool) :
    l1.all f = l2.all f := by
  have hiff : (l1.all f = true) ↔ (l2.all f = true) := by
    rw [List.all_eq_true, List.all_eq_true]
    constructor
    · exact fun h x hx => h x (hp.mem_iff.mpr hx)
    · exact fun h x hx => h x (hp.mem_iff.mp hx)
  cases h1 : l1.all f <;> cases h2 : l2.all f <;> simp_all

theorem check_word_eq_checkLoop (M : Nat) (dk : V2.Disk) (s : V2.MState) (word : List Nat) :
    V2.check_word M dk s word = V2.checkLoop dk s (V2.sortPositions (V2.bitPositions M word)) :=
  rfl

theorem bitPositions_mem_cap (M : Nat) (word : List Nat) (hM : 0 < M) (hcap : M ≤ V2.CAP) :
    ∀ p ∈ V2.bitPositions M word, p < V2.CAP := by
  intro p hp
  simp only [V2.bitPositions, List.mem_map, List.mem_range] at hp
  obtain ⟨i, hi, rfl⟩ := hp
  exact lt_of_lt_of_le (Nat.mod_lt _ hM) hcap

/-- C1: on an error-free store (whose filter fits the addressable record
range) and from any coherent engine state, check_word returns true iff
for every hash index i in 0..K-1 the filter bit at position
hash_i(word, seed=i) mod M is set — in particular a word whose K bits were
all set by the builder is never reported absent — and the loop consults
positions only up to and including the first clear bit in its probe
order, never the remaining ones. -/
theorem check_word_true_iff_all_bits (M : Nat) (dk : V2.Disk) (s : V2.MState)
    (word : List Nat) (hok : V2.errorFree dk) (hs : V2.StateOK dk s)
    (hM : 0 < M) (hcap : M ≤ V2.CAP) :
    ((V2.check_word M dk s word).result = true ↔
      ∀ i, i < V2.NUM_HASH_FUNCTIONS →
        V2.filterBit dk (V2.hashAt i word i % M) = true) ∧
    (V2.check_word M dk s word).consulted =
      (V2.sortPositions (V2.bitPositions M word)).takeWhile (V2.filterBit dk) ++
        ((V2.sortPositions (V2.bitPositions M word)).dropWhile (V2.filterBit dk)).take 1 := by
  have hmem : ∀ p ∈ V2.sortPositions (V2.bitPositions M word), p < V2.CAP :=
    fun p hp => bitPositions_mem_cap M word hM hcap p ((sortPositions_perm _).mem_iff.mp hp)
  obtain ⟨h1, h2, h3⟩ :=
    checkLoop_ok dk hok (V2.sortPositions (V2.bitPositions M word)) s hs hmem
  rw [check_word_eq_checkLoop]
  refine ⟨?_, h3⟩
  rw [h1, List.all_eq_true]
  constructor
  · intro hall i hi
    refine hall _ ((sortPositions_perm _).mem_iff.mpr ?_)
    simp only [V2.bitPositions, List.mem_map, List.mem_range]
    exact ⟨i, hi, rfl⟩
  · intro hset p hp
    have hp' := (sortPositions_perm _).mem_iff.mp hp
    simp only [V2.bitPositions, List.mem_map, List.mem_range] at hp'
    obtain ⟨i, hi, rfl⟩ := hp'
    exact hset i hi

/-- Witness for C1: M = 64, an error-free all-ones store, the initial
engine state and the word CAT. -/
theorem check_word_true_iff_all_bits_witness :
    V2.errorFree V2.diskOnes ∧ V2.StateOK V2.diskOnes V2.initState ∧ (0 : Nat) < 64 ∧
      64 ≤ V2.CAP ∧
      (((V2.check_word 64 V2.diskOnes V2.initState wordCAT).result = true ↔
        ∀ i, i < V2.NUM_HASH_FUNCTIONS →
          V2.filterBit V2.diskOnes (V2.hashAt i wordCAT i % 64) = true) ∧
      (V2.check_word 64 V2.diskOnes V2.initState wordCAT).consulted =
        (V2.sortPositions (V2.bitPositions 64 wordCAT)).takeWhile
            (V2.filterBit V2.diskOnes) ++
          ((V2.sortPositions (V2.bitPositions 64 wordCAT)).dropWhile
            (V2.filterBit V2.diskOnes)).take 1) :=
  ⟨by decide, Or.inl rfl, by decide, by decide,
    check_word_true_iff_all_bits 64 V2.diskOnes V2.initState wordCAT (by decide)
      (Or.inl rfl) (by decide) (by decide)⟩

/-- C8: on an error-free store, the final boolean is independent of the
order in which the bit positions are probed: computed (unsorted) order and
ascending order both give the same result as the descending order used by
check_word. -/
theorem check_order_independent (M : Nat) (dk : V2.Disk) (s : V2.MState)
    (word : List Nat) (hok : V2.errorFree dk) (hs : V2.StateOK dk s)
    (hM : 0 < M) (hcap : M ≤ V2.CAP) :
    (V2.checkLoop dk s (V2.bitPositions M word)).result =
      (V2.check_word M dk s word).result ∧
    (V2.checkLoop dk s ((V2.bitPositions M word).insertionSort (· ≤ ·))).result =
      (V2.check_word M dk s word).result := by
  have hmemb := bitPositions_mem_cap M word hM hcap
  have h0 := checkLoop_ok dk hok (V2.bitPositions M word) s hs hmemb
  have hasc := checkLoop_ok dk hok ((V2.bitPositions M word).insertionSort (· ≤ ·)) s hs
    (fun p hp => hmemb p ((List.perm_insertionSort _ _).mem_iff.mp hp))
  have hdesc := checkLoop_ok dk hok (V2.sortPositions (V2.bitPositions M word)) s hs
    (fun p hp => hmemb p ((sortPositions_perm _).mem_iff.mp hp))
  rw [check_word_eq_checkLoop]
  constructor
  · rw [h0.1, hdesc.1]
    exact (perm_all_eq (sortPositions_perm _) _).symm
  · rw [hasc.1, hdesc.1]
    exact (perm_all_eq ((List.perm_insertionSort _ _).trans
      (sortPositions_perm _).symm) _)

/-- Witness for C8: M = 64, an error-free all-ones store, the initial
engine state and the word CAT. -/
theorem check_order_independent_witness :
    V2.errorFree V2.diskOnes ∧ V2.StateOK V2.diskOnes V2.initState ∧ (0 : Nat) < 64 ∧
      64 ≤ V2.CAP ∧
      ((V2.checkLoop V2.diskOnes V2.initState (V2.bitPositions 64 wordCAT)).result =
        (V2.check_word 64 V2.diskOnes V2.initState wordCAT).result ∧
      (V2.checkLoop V2.diskOnes V2.initState
          ((V2.bitPositions 64 wordCAT).insertionSort (· ≤ ·))).result =
        (V2.check_word 64 V2.diskOnes V2.initState wordCAT).result) :=
  ⟨by decide, Or.inl rfl, by decide, by decide,
    check_order_independent 64 V2.diskOnes V2.initState wordCAT (by decide)
      (Or.inl rfl) (by decide) (by decide)⟩

/-- C7: when two consecutive bit checks map to the same record number, the
second check sends no POSITION command, reads no record, leaves the state
unchanged, and answers the bit from the cached buffer. -/
theorem same_record_no_second_read (dk : V2.Disk) (s : V2.MState) (p1 p2 : Nat)
    (hok : V2.errorFree dk) (h12 : V2.recOf p1 = V2.recOf p2) :
    V2.bloom_read_bit dk (V2.bloom_read_bit dk s p1).state p2 =
      ⟨Nat.testBit ((V2.bloom_read_bit dk s p1).state.record_buffer (V2.byteInRecOf p2))
          (V2.bitOffOf p2),
        (V2.bloom_read_bit dk s p1).state, 0, 0⟩ := by
  have hcur : toUInt16 (V2.bloom_read_bit dk s p1).state.current_record = V2.recOf p1 := by
    by_cases hhit : V2.recOf p1 = toUInt16 s.current_record
    · simp only [V2.bloom_read_bit, if_neg (not_not_intro hhit)]
      exact hhit.symm
    · simp only [V2.bloom_read_bit, if_pos hhit]
      rw [if_neg (by rw [hok.1]; simp), if_neg (by rw [hok.2]; simp)]
      rw [toUInt16_toInt16]
      exact Nat.mod_eq_of_lt (recOf_lt p1)
  rw [h12] at hcur
  generalize (V2.bloom_read_bit dk s p1).state = s1 at hcur ⊢
  simp only [V2.bloom_read_bit, if_neg (not_not_intro hcur.symm)]

/-- Witness for C7: an error-free all-zero store, initial state, bit
positions 3 and 5 (both in record 0). -/
theorem same_record_no_second_read_witness :
    V2.errorFree V2.diskZero ∧ V2.recOf 3 = V2.recOf 5 ∧
      V2.bloom_read_bit V2.diskZero (V2.bloom_read_bit V2.diskZero V2.initState 3).state 5 =
        ⟨Nat.testBit ((V2.bloom_read_bit V2.diskZero V2.initState 3).state.record_buffer
            (V2.byteInRecOf 5)) (V2.bitOffOf 5),
          (V2.bloom_read_bit V2.diskZero V2.initState 3).state, 0, 0⟩ :=
  ⟨by decide, by decide,
    same_record_no_second_read V2.diskZero V2.initState 3 5 (by decide) (by decide)⟩

/-- C4 counterexample: when fetching the record fails (chkout failure at
the store boundary), check_word returns plain false — exactly the value an
error-free store returns for a word whose first bit is clear — so the
caller cannot distinguish a store error from "word absent" in the
query's outcome. -/
theorem store_error_reported_as_absent :
    (V2.check_word 64 V2.diskChkoutFail V2.initState wordCAT).result = false ∧
    V2.errorFree V2.diskZero ∧
    (V2.check_word 64 V2.diskZero V2.initState wordCAT).result = false ∧
    (V2.check_word 64 V2.diskChkoutFail V2.initState wordCAT).result =
      (V2.check_word 64 V2.diskZero V2.initState wordCAT).result := by
  refine ⟨by decide, by decide, by decide, by decide⟩

/-- C4 amended: a store failure at the record fetch aborts the query at
once — no record is read, no later position is consulted — but the
failure reaches the caller only as a printed diagnostic: the returned
boolean is false, the same value that means "word absent". -/
theorem check_word_false_on_store_error (M : Nat) (dk : V2.Disk) (word : List Nat)
    (hfail : dk.chkoutOk = false) :
    (V2.check_word M dk V2.initState word).result = false ∧
    (V2.check_word M dk V2.initState word).recReads = 0 ∧
    (V2.check_word M dk V2.initState word).consulted.length = 1 := by
  have hlen : (V2.sortPositions (V2.bitPositions M word)).length = 5 := by
    rw [(sortPositions_perm _).length_eq]
    simp [V2.bitPositions, V2.NUM_HASH_FUNCTIONS]
  rw [check_word_eq_checkLoop]
  rcases hsp : V2.sortPositions (V2.bitPositions M word) with _ | ⟨p, rest⟩
  · rw [hsp] at hlen; simp at hlen
  · have hfirst : (V2.bloom_read_bit dk V2.initState p).result = false ∧
        (V2.bloom_read_bit dk V2.initState p).recReads = 0 := by
      by_cases hhit : V2.recOf p = toUInt16 V2.initState.current_record
      · simp only [V2.bloom_read_bit, if_neg (not_not_intro hhit)]
        refine ⟨by simp [V2.initState, Nat.zero_testBit], ?_⟩
        trivial
      · simp only [V2.bloom_read_bit, if_pos hhit, hfail]
        simp
    simp only [V2.checkLoop]
    rw [if_neg (by rw [hfirst.1]; simp)]
    exact ⟨rfl, hfirst.2, rfl⟩

/-- Witness for C4's amended claim: M = 64, the chkout-failing store and
the word CAT. -/
theorem check_word_false_on_store_error_witness :
    V2.diskChkoutFail.chkoutOk = false ∧
      ((V2.check_word 64 V2.diskChkoutFail V2.initState wordCAT).result = false ∧
      (V2.check_word 64 V2.diskChkoutFail V2.initState wordCAT).recReads = 0 ∧
      (V2.check_word 64 V2.diskChkoutFail V2.initState wordCAT).consulted.length = 1) :=
  ⟨by decide, check_word_false_on_store_error 64 V2.diskChkoutFail wordCAT (by decide)⟩

/-- C6: evaluation of check_bit at the failing input — a store whose read
status reports an error right after the first byte of record 0 (store
bytes all 0xFF) — shows the single-record cache only half updated on the
error path: the call returns false, yet current_record names record 0
while only record_buffer[0] was refreshed; record_buffer[1] still holds
the stale 0 although the record's byte there is 255. -/
theorem cache_half_updated_on_read_error :
    (V1.check_bit V1.errStore V1.initState 0).1 = false ∧
    (V1.check_bit V1.errStore V1.initState 0).2.current_record = 0 ∧
    (V1.check_bit V1.errStore V1.initState 0).2.record_buffer 0 = 255 ∧
    (V1.check_bit V1.errStore V1.initState 0).2.record_buffer 1 = 0 ∧
    V1.errStore.byteAt 1 = 255 := by
  refine ⟨by decide, by decide, by decide, by decide, by decide⟩

theorem okCodesLoop_spec (err : Nat) (ok : List Nat) (num : Nat) :
    ∀ (fuel i : Nat), num - i ≤ fuel → ∀ (b : Bool),
      (V2.okCodesLoop err ok num i b = true ↔
        b = true ∨ ∃ j, i ≤ j ∧ j < num ∧ err = ok.getD j 0) := by
  intro fuel
  induction fuel with
  | zero =>
    intro i hi b
    unfold V2.okCodesLoop
    rw [dif_neg (by omega)]
    constructor
    · exact Or.inl
    · rintro (hb | ⟨j, hij, hjn, _⟩)
      · exact hb
      · omega
  | succ fuel ih =>
    intro i hi b
    unfold V2.okCodesLoop
    by_cases hcond : i < num ∧ b = false
    · rw [dif_pos hcond]
      rw [ih (i + 1) (by omega) _]
      constructor
      · rintro (hb' | ⟨j, hj1, hj2, hj3⟩)
        · by_cases he : err = ok.getD i 0
          · exact Or.inr ⟨i, le_refl i, hcond.1, he⟩
          · rw [if_neg he, hcond.2] at hb'
            exact absurd hb' (by simp)
        · exact Or.inr ⟨j, by omega, hj2, hj3⟩
      · rintro (hb | ⟨j, hj1, hj2, hj3⟩)
        · rw [hcond.2] at hb
          exact absurd hb (by simp)
        · by_cases hji : j = i
          · subst hji
            exact Or.inl (by rw [if_pos hj3])
          · exact Or.inr ⟨j, by omega, hj2, hj3⟩
    · rw [dif_neg hcond]
      constructor
      · exact Or.inl
      · rintro (hb | ⟨j, hj1, hj2, hj3⟩)
        · exact hb
        · by_cases hbv : b = true
          · exact hbv
          · exact absurd ⟨by omega, by revert hbv; cases b <;> simp⟩ hcond

theorem getD_mem_take {l : List Nat} {n j : Nat} (hj : j < n) (hjl : j < l.length) :
    l.getD j 0 ∈ l.take n := by
  rw [List.getD_eq_getElem?_getD, List.getElem?_eq_getElem hjl]
  simp only [Option.getD_some]
  rw [List.mem_iff_getElem?]
  exact ⟨j, by rw [List.getElem?_take_of_lt hj, List.getElem?_eq_getElem hjl]⟩

theorem mem_take_exists_getD {l : List Nat} {n : Nat} {a : Nat} (ha : a ∈ l.take n) :
    ∃ j, j < n ∧ l.getD j 0 = a := by
  rw [List.mem_iff_getElem] at ha
  obtain ⟨j, hj, he⟩ := ha
  have hlt : j < min n l.length := by
    have := hj
    simpa [List.length_take] using this
  have hjn : j < n := lt_of_lt_of_le hlt (min_le_left _ _)
  have hjl : j < l.length := lt_of_lt_of_le hlt (min_le_right _ _)
  refine ⟨j, hjn, ?_⟩
  rw [List.getD_eq_getElem?_getD, List.getElem?_eq_getElem hjl]
  have h2 : (l.take n)[j]? = l[j]? := List.getElem?_take_of_lt hjn
  rw [List.getElem?_eq_getElem hj, List.getElem?_eq_getElem hjl] at h2
  have h3 := Option.some.inj h2
  simp only [Option.getD_some]
  rw [← h3]
  exact he

/-- C9: check_dos_status classifies a status report as success exactly
when the code read by read_dos_status is 0 or occurs among the first
num_ok_codes entries of the caller-supplied ok_codes list — the
allow-list is a per-call-site argument, not a global. -/
theorem dos_status_ok_iff (chk : Bool) (c1 c2 : Nat) (ok_codes : List Nat)
    (num_ok_codes : Nat) (hnum : num_ok_codes ≤ ok_codes.length) :
    V2.check_dos_status (V2.read_dos_status_code chk c1 c2) ok_codes num_ok_codes = true ↔
      V2.read_dos_status_code chk c1 c2 = 0 ∨
        V2.read_dos_status_code chk c1 c2 ∈ ok_codes.take num_ok_codes := by
  set err := V2.read_dos_status_code chk c1 c2 with herr
  unfold V2.check_dos_status
  rw [okCodesLoop_spec err ok_codes num_ok_codes num_ok_codes 0 (by omega)]
  constructor
  · rintro (hb | ⟨j, _, hj2, hj3⟩)
    · exact Or.inl (by simpa using hb)
    · exact Or.inr (hj3 ▸ getD_mem_take hj2 (lt_of_lt_of_le hj2 hnum))
  · rintro (h0 | hmem)
    · exact Or.inl (by rw [h0]; rfl)
    · obtain ⟨j, hjn, hjd⟩ := mem_take_exists_getD hmem
      exact Or.inr ⟨j, Nat.zero_le j, hjn, hjd.symm⟩

/-- Witness for C9: chkin succeeds, the channel reads the digits "02"
(code 2), and the caller allow-lists code 2 with num_ok_codes = 1. -/
theorem dos_status_ok_iff_witness :
    1 ≤ [2].length ∧
      (V2.check_dos_status (V2.read_dos_status_code true 48 50) [2] 1 = true ↔
        V2.read_dos_status_code true 48 50 = 0 ∨
          V2.read_dos_status_code true 48 50 ∈ [2].take 1) :=
  ⟨by decide, dos_status_ok_iff true 48 50 [2] 1 (by decide)⟩
